import Mathlib

/-!
Shallow embedding of the taxonomy name-resolution and reconciliation
subsystem of the auto-wordpress-blog repository
(`src/wordpress-post/services/wordpress-api.ts`, with the handler-level
variant of the same functions in `src/unnamed/part_008`), together with
theorems settling the specification claims about it.

Strings are modelled as Lean `String`/`List Char`.  JavaScript string
operations used by the source (`toLowerCase`, `replace(/…/g, …)`, `trim`,
`includes`) are embedded as executable functions on `List Char`.  Case
mapping is modelled on the ASCII range: the taxonomy strings the service
manipulates are ASCII apart from the punctuation code points that the
normalizer itself maps away, and non-ASCII letters are kept unchanged.
-/

namespace WordPressApi

/-- Model of JavaScript `String.prototype.toLowerCase`, restricted to the
ASCII letters `A`–`Z` (other characters are returned unchanged). -/
def jsToLower (c : Char) : Char :=
  if 65 ≤ c.toNat ∧ c.toNat ≤ 90 then Char.ofNat (c.toNat + 32) else c

/-- `name.toLowerCase()` on a whole string. -/
def lowerStr (s : String) : String := String.mk (s.data.map jsToLower)

/-- Model of `str.replace(/pat/g, rep)` for a literal pattern `pat`:
scan left to right, replace each non-overlapping occurrence and resume the
scan after the replaced text.  `skip` counts characters of a just-matched
pattern occurrence that are still to be consumed from the input. -/
def replaceGo (pat rep : List Char) : Nat → List Char → List Char
  | _, [] => []
  | Nat.succ k, _ :: rest => replaceGo pat rep k rest
  | 0, c :: rest =>
    if pat.isPrefixOf (c :: rest) then
      rep ++ replaceGo pat rep (pat.length - 1) rest
    else
      c :: replaceGo pat rep 0 rest

/-- `str.replace(/pat/g, rep)` for a literal pattern. -/
def replaceAll (pat rep s : List Char) : List Char := replaceGo pat rep 0 s

/-- Model of one `str.replace(/[c₁c₂…]/g, rep)` pass for a character
class `cls`. -/
def replaceClass (cls rep : List Char) : List Char → List Char
  | [] => []
  | c :: rest =>
    if c ∈ cls then rep ++ replaceClass cls rep rest
    else c :: replaceClass cls rep rest

/-- The JavaScript `\s` character set (also the set trimmed by
`String.prototype.trim`). -/
def isJsWhitespace (c : Char) : Bool :=
  c.toNat = 32 || c.toNat = 9 || c.toNat = 10 || c.toNat = 11 ||
  c.toNat = 12 || c.toNat = 13 || c.toNat = 0xA0 || c.toNat = 0x1680 ||
  (0x2000 ≤ c.toNat && c.toNat ≤ 0x200A) || c.toNat = 0x2028 ||
  c.toNat = 0x2029 || c.toNat = 0x202F || c.toNat = 0x205F ||
  c.toNat = 0x3000 || c.toNat = 0xFEFF

/-- Model of `str.replace(/\s+/g, " ")`: every maximal whitespace run is
emitted as one single space.  `prevWs` records whether the scanner is inside
a whitespace run whose space has already been emitted. -/
def collapseGo : Bool → List Char → List Char
  | _, [] => []
  | prevWs, c :: rest =>
    if isJsWhitespace c then
      if prevWs then collapseGo true rest else ' ' :: collapseGo true rest
    else c :: collapseGo false rest

/-- `str.replace(/\s+/g, " ")`. -/
def collapseWs (s : List Char) : List Char := collapseGo false s

/-- Model of JavaScript `String.prototype.trim`. -/
def jsTrim (s : List Char) : List Char :=
  ((s.dropWhile isJsWhitespace).reverse.dropWhile isJsWhitespace).reverse

/-- The fixed HTML-entity decode table of `normalizeTaxonomyName`, in the
order the source applies the `.replace` calls. -/
def entityPairs : List (List Char × List Char) :=
  [("&amp;".data, "&".data), ("&lt;".data, "<".data), ("&gt;".data, ">".data),
   ("&quot;".data, "\"".data), ("&#039;".data, "'".data),
   ("&#39;".data, "'".data), ("&ndash;".data, "-".data),
   ("&mdash;".data, "--".data), ("&hellip;".data, "...".data)]

/-- The chained entity `.replace` calls of `normalizeTaxonomyName`. -/
def decodeEntities (s : List Char) : List Char :=
  entityPairs.foldl (fun acc pr => replaceAll pr.1 pr.2 acc) s

/-- The Unicode-punctuation mapping table of `normalizeTaxonomyName`
(smart single quotes, smart double quotes, ellipsis, en dash, em dash,
non-breaking space), in source order. -/
def unicodePairs : List (List Char × List Char) :=
  [(['‘', '’', '‚', '‛'], "'".data),
   (['“', '”', '„', '‟'], "\"".data),
   (['…'], "...".data),
   (['–'], "-".data),
   (['—'], "--".data),
   ([' '], " ".data)]

/-- The chained Unicode `.replace` calls of `normalizeTaxonomyName`. -/
def mapUnicode (s : List Char) : List Char :=
  unicodePairs.foldl (fun acc pr => replaceClass pr.1 pr.2 acc) s

/-- Embedding of `WordPressApiService.normalizeTaxonomyName`
(`wordpress-api.ts` lines 273–304; identical code at `part_008` lines
115–146): empty guard, lower-case, HTML-entity decode, Unicode punctuation
mapping, whitespace collapse, trim. -/
def normalizeTaxonomyName (name : String) : String :=
  if name = "" then ""
  else
    String.mk
      (jsTrim (collapseWs (mapUnicode (decodeEntities (name.data.map jsToLower)))))

/-- The name→id index (`categoriesMap` / `tagsMap`): a JavaScript object with
string keys, modelled as an association list with insert-or-overwrite
update and first-match lookup (keys stay unique). -/
def Index : Type := List (String × Nat)

instance : DecidableEq Index := by
  unfold Index
  infer_instance

/-- Assignment `cacheObj[key] = id` on a JavaScript object: overwrite the
existing entry for `key` if present, otherwise append a new entry. -/
def insertIdx : Index → String → Nat → Index
  | [], k, v => [(k, v)]
  | (k', v') :: rest, k, v =>
    if k' = k then (k, v) :: rest else (k', v') :: insertIdx rest k v

/-- `cacheObj[key]` read, `none` for an absent key. -/
def lookupIdx : Index → String → Option Nat
  | [], _ => none
  | (k', v') :: rest, k => if k' = k then some v' else lookupIdx rest k

/-- One `{id, name, slug}` element of a taxonomy listing response.  A field
is `none` when absent from the JSON object. -/
structure TaxItem where
  id : Option Nat
  name : Option String
  slug : Option String
  deriving DecidableEq

/-- Embedding of the `items.forEach` body of `fetchAllTaxonomies`
(`wordpress-api.ts` lines 124–140): under the truthiness guard
`item.id && item.name`, insert the normalized name, the raw lower-cased
name, and — under the truthiness guard `item.slug` — the normalized slug
and raw lower-cased slug, all mapped to `item.id`. -/
def addItem (cache : Index) (item : TaxItem) : Index :=
  match item.id, item.name with
  | some i, some nm =>
    if i ≠ 0 ∧ nm ≠ "" then
      let c2 := insertIdx (insertIdx cache (normalizeTaxonomyName nm) i) (lowerStr nm) i
      match item.slug with
      | some sl =>
        if sl ≠ "" then
          insertIdx (insertIdx c2 (normalizeTaxonomyName sl) i) (lowerStr sl) i
        else c2
      | none => c2
    else cache
  | _, _ => cache

/-- Embedding of the pagination loop of
`WordPressApiService.fetchAllTaxonomies` (`wordpress-api.ts` lines
98–158).  The HTTP layer is modelled by `pages`: the server's responses for
page 1, 2, … in order, each either a successful body (`Except.ok`) or a
transport/HTTP failure (`Except.error`); a request past the end of the list
is a successful empty page.  Returns the populated index together with the
number of page requests issued.  The function is total: a failed page stops
the loop (`hasMore = false` in the `catch`), it never raises. -/
def fetchAllTaxonomies (pages : List (Except Unit (List TaxItem)))
    (cache : Index) : Index × Nat :=
  match pages with
  | [] => (cache, 1)
  | Except.error _ :: _ => (cache, 1)
  | Except.ok items :: rest =>
    if items.length = 0 then (cache, 1)
    else
      if items.length < 100 then (items.foldl addItem cache, 1)
      else
        ((fetchAllTaxonomies rest (items.foldl addItem cache)).1,
         (fetchAllTaxonomies rest (items.foldl addItem cache)).2 + 1)

/-- Embedding of the name→id mapping step of
`WordPressApiService.getTaxonomyIds` (`wordpress-api.ts` lines 67–73 and
81–87): `names.map(n => map[normalize(n)]).filter(id => id !== undefined)`. -/
def resolveNames (names : List String) (idx : Index) : List Nat :=
  names.filterMap (fun n => lookupIdx idx (normalizeTaxonomyName n))

/-- The `{ categoryIds, tagIds }` result object of `getTaxonomyIds`. -/
structure TaxonomyIdsResult where
  categoryIds : List Nat
  tagIds : List Nat
  deriving DecidableEq

/-- Embedding of `WordPressApiService.getTaxonomyIds` (`wordpress-api.ts`
lines 52–91).  `catPages` / `tagPages` are the category and tag listing
servers as in `fetchAllTaxonomies`; an absent argument is `none`.  Besides
the result object, the model returns the number of page requests issued
against each of the two listing endpoints (0 = that endpoint was never
contacted), making the fetch side effects observable. -/
def getTaxonomyIds (catPages tagPages : List (Except Unit (List TaxItem)))
    (categoryNames tagNames : Option (List String)) :
    TaxonomyIdsResult × Nat × Nat :=
  let catPart :=
    match categoryNames with
    | some names =>
      if names.length > 0 then
        let fetched := fetchAllTaxonomies catPages []
        (resolveNames names fetched.1, fetched.2)
      else ([], 0)
    | none => ([], 0)
  let tagPart :=
    match tagNames with
    | some names =>
      if names.length > 0 then
        let fetched := fetchAllTaxonomies tagPages []
        (resolveNames names fetched.1, fetched.2)
      else ([], 0)
    | none => ([], 0)
  ({ categoryIds := catPart.1, tagIds := tagPart.1 }, catPart.2, tagPart.2)

/-- Model of JavaScript `hay.includes(needle)` (substring containment). -/
def containsSub (hay needle : List Char) : Bool :=
  if needle.isPrefixOf hay then true
  else
    match hay with
    | [] => false
    | _ :: t => containsSub t needle

/-- `hay.includes(needle)` on `String`. -/
def strIncludes (hay needle : String) : Bool := containsSub hay.data needle.data

/-- Embedding of `WordPressApiService.findFuzzyMatch` (`wordpress-api.ts`
lines 312–334; identical code at `part_008` lines 1190–1215): exact
membership first, then the substring filter, then the source's `reduce`
(JavaScript `reduce` without an initial value starts from the first
element).  The comparison is transcribed verbatim, including the source's
`Math.abs(closest.length - closest.length)` (which is always 0). -/
def findFuzzyMatch (target : String) (candidates : List String) :
    Option String :=
  if target ∈ candidates then some target
  else
    match candidates.filter
        (fun c => strIncludes c target || strIncludes target c) with
    | [] => none
    | h :: t =>
      some (t.foldl
        (fun closest current =>
          if ((current.length : Int) - (target.length : Int)).natAbs <
              ((closest.length : Int) - (closest.length : Int)).natAbs
          then current else closest) h)

/-- Embedding of `WordPressApiService.createNewTags` (`wordpress-api.ts`
lines 165–200).  The tag-creation endpoint is modelled by `create`: for a
tag name it either fails (`Except.error`, the thrown request) or succeeds
with `some id` when the response body has a truthy `data.id`, `none` when
it does not.  Over-long names are skipped before any request; a failed or
id-less creation contributes nothing; ids are collected in the order the
creations succeed.  The function is total — every failure is caught. -/
def createNewTags (create : String → Except Unit (Option Nat))
    (tagNames : List String) : List Nat :=
  tagNames.foldl
    (fun tagIds tagName =>
      if tagName.length > 200 then tagIds
      else
        match create tagName with
        | Except.error _ => tagIds
        | Except.ok resp =>
          match resp with
          | some i => if i ≠ 0 then tagIds ++ [i] else tagIds
          | none => tagIds) []

/-- `categoriesMap[key]` under a JavaScript truthiness test
(`if (categoriesMap[key])`): an absent key and a 0 id are both falsy. -/
def truthyLookup (idx : Index) (k : String) : Option Nat :=
  match lookupIdx idx k with
  | some i => if i = 0 then none else some i
  | none => none

/-- An ASCII decimal digit. -/
def isDigitChar (c : Char) : Bool := 48 ≤ c.toNat && c.toNat ≤ 57

/-- Value of a decimal digit string. -/
def strVal (l : List Char) : Nat :=
  l.foldl (fun n c => n * 10 + (c.toNat - 48)) 0

/-- A string key is a JavaScript array index: the canonical decimal form
(digits only, no leading zero except `"0"` itself) of an integer below
2³² − 1. -/
def isArrayIndex (k : String) : Bool :=
  match k.data with
  | [] => false
  | c :: rest =>
    (c :: rest).all isDigitChar && (c != '0' || rest.isEmpty) &&
      decide (strVal (c :: rest) < 4294967295)

/-- Numeric value of an array-index key. -/
def keyVal (k : String) : Nat := strVal k.data

/-- Insert a key into a list sorted by ascending numeric value. -/
def insertSorted (k : String) : List String → List String
  | [] => [k]
  | x :: xs =>
    if keyVal k ≤ keyVal x then k :: x :: xs else x :: insertSorted k xs

/-- Sort keys by ascending numeric value (insertion sort). -/
def sortKeys : List String → List String
  | [] => []
  | x :: xs => insertSorted x (sortKeys xs)

/-- Model of `Object.keys` on a JavaScript object with string keys:
array-index keys come first in ascending numeric order, then the remaining
keys in insertion order (the association list preserves insertion order,
since an update of an existing key keeps its position). -/
def jsObjectKeys (idx : Index) : List String :=
  sortKeys ((idx.map Prod.fst).filter isArrayIndex) ++
    (idx.map Prod.fst).filter (fun k => !(isArrayIndex k))

/-- Embedding of the handler's category-resolution loop
(`part_008` lines 744–760): per name, a truthy direct lookup of the
normalized name, otherwise `findFuzzyMatch` against `Object.keys` of the
index; the guard `if (fuzzyMatch && categoriesMap[fuzzyMatch])` pushes the
matched key's id only when the matched key itself is truthy (an empty
string is falsy) and its id lookup is truthy in turn; names that still
fail contribute nothing. -/
def resolveCategoryIds (catMap : Index) (names : List String) : List Nat :=
  names.foldl
    (fun categoryIds name =>
      let normalized := normalizeTaxonomyName name
      match truthyLookup catMap normalized with
      | some i => categoryIds ++ [i]
      | none =>
        match findFuzzyMatch normalized (jsObjectKeys catMap) with
        | some fm =>
          if fm ≠ "" then
            match truthyLookup catMap fm with
            | some i => categoryIds ++ [i]
            | none => categoryIds
          else categoryIds
        | none => categoryIds) []

/-- The `{ ids, unmatched }` outcome of the specification's resolver. -/
structure ResolveOutcome where
  ids : List Nat
  unmatched : List String
  deriving DecidableEq

/-- Modelled from the spec (§4.3 `TaxonomyResolver`), for comparison with
the implementation: per input name, look up the normalized name; on a miss
attempt the fuzzy matcher over all index keys and use the match's id; names
that still resolve to nothing are recorded in `unmatched`. -/
def resolveIds_spec (idx : Index) (names : List String) : ResolveOutcome :=
  names.foldl
    (fun acc n =>
      let key := normalizeTaxonomyName n
      match lookupIdx idx key with
      | some i => { acc with ids := acc.ids ++ [i] }
      | none =>
        match findFuzzyMatch key (idx.map Prod.fst) with
        | some fm =>
          match lookupIdx idx fm with
          | some i => { acc with ids := acc.ids ++ [i] }
          | none => { acc with unmatched := acc.unmatched ++ [n] }
        | none => { acc with unmatched := acc.unmatched ++ [n] })
    ⟨[], []⟩

/-! Concrete instances used by the claims. -/

/-- The example index of spec §8: `{"tech": 5, "news": 10}`. -/
def exIdx : Index := [("tech", 5), ("news", 10)]

/-- A one-entry category index for the fuzzy-fallback scenario. -/
def bgIdx : Index := [("beginner guides", 7)]

/-- A listing item with id `i + 1` and name `tag i`, no slug. -/
def mkItem (i : Nat) : TaxItem :=
  { id := some (i + 1), name := some ("tag " ++ Nat.repr i), slug := none }

/-- First page of the 250-item listing: items 0–99. -/
def page1 : List TaxItem := (List.range 100).map mkItem

/-- Second page of the 250-item listing: items 100–199. -/
def page2 : List TaxItem := (List.range 100).map (fun i => mkItem (100 + i))

/-- Third page of the 250-item listing: items 200–249. -/
def page3 : List TaxItem := (List.range 50).map (fun i => mkItem (200 + i))

/-- The 250 items of the mock listing. -/
def items250 : List TaxItem := page1 ++ page2 ++ page3

/-- A mock listing server delivering the 250 items as pages of
100 / 100 / 50. -/
def pages250 : List (Except Unit (List TaxItem)) :=
  [Except.ok page1, Except.ok page2, Except.ok page3]

/-- A mock tag-creation endpoint: creating "alpha" succeeds with id 1,
creating "beta" throws, creating "gamma" succeeds with id 3. -/
def cServer : String → Except Unit (Option Nat) := fun n =>
  if n = "alpha" then Except.ok (some 1)
  else if n = "beta" then Except.error ()
  else if n = "gamma" then Except.ok (some 3)
  else Except.ok none

/-- A 201-character tag name, above the 200-character creation limit. -/
def longName : String := String.mk (List.replicate 201 'x')

/-! ## Claim C2 — fuzzy matching by closest length

The source's `reduce` compares `Math.abs(current.length - target.length)`
against `Math.abs(closest.length - closest.length)`; the second operand is
always 0, so the accumulator is never replaced and the first substring match
wins regardless of length, contradicting the inline comment
"返回长度最接近的匹配" (return the length-closest match) right above it. -/

/-- C2: with target `"ab"` and candidates `["abcd", "abc"]` (both substring
matches, neither exact), the code returns `"abcd"`, the first candidate,
even though `"abc"` is strictly closer in length to the target — the
length-closest rule the claim (and the code's own comment) states does not
hold. -/
theorem C2_fuzzy_first_match_bug :
    findFuzzyMatch "ab" ["abcd", "abc"] = some "abcd" ∧
    (("abc".length : Int) - ("ab".length : Int)).natAbs <
      (("abcd".length : Int) - ("ab".length : Int)).natAbs := by
  decide

/-! ## Claim C8 — concrete behaviour of the normalizer -/

/-- C8: `normalizeTaxonomyName` lower-cases, decodes the fixed entity set,
maps the Unicode punctuation variants to ASCII, collapses whitespace runs
and trims, and returns `""` on empty input; each behaviour is witnessed at
a concrete input, including the two equalities the claim spells out. -/
theorem C8_normalize_behaviour :
    normalizeTaxonomyName "" = "" ∧
    normalizeTaxonomyName "Cat &amp; Dog" = "cat & dog" ∧
    normalizeTaxonomyName "Cat & Dog" = "cat & dog" ∧
    normalizeTaxonomyName "  multiple    spaces  " = "multiple spaces" ∧
    normalizeTaxonomyName "TECH" = "tech" ∧
    normalizeTaxonomyName "a&lt;b" = "a<b" ∧
    normalizeTaxonomyName "a&gt;b" = "a>b" ∧
    normalizeTaxonomyName "a&quot;b" = "a\"b" ∧
    normalizeTaxonomyName "a&#039;b" = "a'b" ∧
    normalizeTaxonomyName "a&#39;b" = "a'b" ∧
    normalizeTaxonomyName "a&ndash;b" = "a-b" ∧
    normalizeTaxonomyName "a&mdash;b" = "a--b" ∧
    normalizeTaxonomyName "a&hellip;b" = "a...b" ∧
    normalizeTaxonomyName "Beginner’s Guide" = "beginner's guide" ∧
    normalizeTaxonomyName "a“b”c" = "a\"b\"c" ∧
    normalizeTaxonomyName "a…b" = "a...b" ∧
    normalizeTaxonomyName "a–b" = "a-b" ∧
    normalizeTaxonomyName "a—b" = "a--b" ∧
    normalizeTaxonomyName "a b" = "a b" := by
  decide

/-! ## Claim C9 — truthiness filter on listing items -/

/-- C9: the `item.id && item.name` filter of the fetch loop is a JavaScript
truthiness test, so an item whose id is the number 0 or whose name is the
empty string contributes no keys to the index, exactly like an item whose
id or name field is absent. -/
theorem C9_truthiness_filter (cache : Index) (item : TaxItem)
    (h : item.id = some 0 ∨ item.name = some "" ∨
         item.id = none ∨ item.name = none) :
    addItem cache item = cache := by
  obtain ⟨oid, onm, osl⟩ := item
  simp only at h
  cases oid with
  | none => rfl
  | some i =>
    cases onm with
    | none => rfl
    | some nm =>
      have : i = 0 ∨ nm = "" := by
        rcases h with h | h | h | h
        · exact Or.inl (Option.some_injective _ h)
        · exact Or.inr (Option.some_injective _ h)
        · exact absurd h (by simp)
        · exact absurd h (by simp)
      simp only [addItem]
      rcases this with h' | h' <;> simp [h']

/-- C9 witness: an item carrying id 0 (and a non-empty name) is skipped. -/
theorem C9_truthiness_filter_witness :
    addItem [("news", 10)] { id := some 0, name := some "News", slug := some "news" }
      = [("news", 10)] :=
  C9_truthiness_filter [("news", 10)] _ (Or.inl rfl)

/-! ## Claim C7 — resolution order, misses, empty input

`getTaxonomyIds` maps each name through the index and filters out the
undefined lookups; it returns only the id lists.  No `unmatched` record of
any kind exists in its result, so "unmatched names are reported" fails:
two inputs with different unmatched names produce identical outputs. -/

/-- C7 counterexample: on the spec's own example index, the code's
resolution result for `["Tech", "News", "Unknown"]` is indistinguishable
from the result for `["Tech", "News"]` — the miss `"Unknown"` is reported
nowhere — while the spec-modelled resolver distinguishes the two inputs by
their `unmatched` component. -/
theorem C7_unmatched_not_reported :
    resolveNames ["Tech", "News", "Unknown"] exIdx =
      resolveNames ["Tech", "News"] exIdx ∧
    (resolveIds_spec exIdx ["Tech", "News", "Unknown"]).unmatched ≠
      (resolveIds_spec exIdx ["Tech", "News"]).unmatched := by
  decide

/-- C7 as amended: the resolved ids do follow the input order of the names
(resolution distributes over concatenation of the input list), an empty
names list yields an empty id list (and the function is total, so nothing
is thrown), and on the example index the input
`["Tech", "News", "Unknown"]` resolves to `[5, 10]`; but unmatched names
are silently dropped, not reported. -/
theorem C7_order_and_empty :
    (∀ (idx : Index) (xs ys : List String),
      resolveNames (xs ++ ys) idx = resolveNames xs idx ++ resolveNames ys idx) ∧
    (∀ idx : Index, resolveNames [] idx = []) ∧
    resolveNames ["Tech", "News", "Unknown"] exIdx = [5, 10] := by
  refine ⟨fun idx xs ys => ?_, fun idx => rfl, by decide⟩
  simp [resolveNames, List.filterMap_append]

/-! ## Claim C3 — fuzzy fallback inside resolution

The claim's sources are two different resolvers.  The service-class
`getTaxonomyIds` (`wordpress-api.ts` lines 52–91) performs no fuzzy
matching at all: a normalized-name miss is simply filtered away.  The
handler's category loop (`part_008` lines 744–760) does attempt
`findFuzzyMatch` over all index keys on a miss and pushes the match's id —
but a name that still fails is dropped, never recorded as unmatched. -/

/-- C3 counterexample: with the index `{"beginner guides": 7}` and input
`["beginner guide"]`, the fuzzy matcher succeeds on the full key set, yet
the service-class resolution returns no id at all (and records nothing):
`getTaxonomyIds` never attempts the fuzzy matcher. -/
theorem C3_service_never_fuzzy :
    resolveNames ["beginner guide"] bgIdx = [] ∧
    findFuzzyMatch (normalizeTaxonomyName "beginner guide")
        (jsObjectKeys bgIdx) = some "beginner guides" := by
  decide

/-- C3 as amended: in the handler's category-resolution loop, a name whose
normalized form has no truthy entry is retried through `findFuzzyMatch`
against `Object.keys` of the index; when the match is a truthy (non-empty)
key whose id lookup is truthy too, that id is appended to the result ids —
an empty-string match is falsy and skipped by the
`if (fuzzyMatch && categoriesMap[fuzzyMatch])` guard; a name that still
fails contributes nothing and is recorded nowhere.  (The service-class
`getTaxonomyIds` performs no fuzzy fallback at all.) -/
theorem C3_handler_fuzzy_fallback (catMap : Index) (ns : List String)
    (name : String)
    (h : truthyLookup catMap (normalizeTaxonomyName name) = none) :
    resolveCategoryIds catMap (ns ++ [name]) =
      resolveCategoryIds catMap ns ++
        (match findFuzzyMatch (normalizeTaxonomyName name)
            (jsObjectKeys catMap) with
         | some fm =>
           if fm ≠ "" then (truthyLookup catMap fm).toList else []
         | none => []) := by
  simp only [resolveCategoryIds, List.foldl_append, List.foldl_cons,
    List.foldl_nil]
  rw [h]
  cases hfm : findFuzzyMatch (normalizeTaxonomyName name)
      (jsObjectKeys catMap) with
  | none => simp
  | some fm =>
    by_cases hne : fm = ""
    · simp [hne]
    · cases ht : truthyLookup catMap fm <;> simp [hne, ht]

/-- C3 witness: the amended behaviour at the concrete scenario — a miss on
`"Beginner Guide"` against `{"beginner guides": 7}` goes through the fuzzy
matcher. -/
theorem C3_handler_fuzzy_fallback_witness :
    truthyLookup bgIdx (normalizeTaxonomyName "Beginner Guide") = none ∧
    resolveCategoryIds bgIdx (["Tech"] ++ ["Beginner Guide"]) =
      resolveCategoryIds bgIdx ["Tech"] ++
        (match findFuzzyMatch (normalizeTaxonomyName "Beginner Guide")
            (jsObjectKeys bgIdx) with
         | some fm =>
           if fm ≠ "" then (truthyLookup bgIdx fm).toList else []
         | none => []) :=
  ⟨by decide, C3_handler_fuzzy_fallback bgIdx ["Tech"] "Beginner Guide" (by decide)⟩

/-! ## Claim C10 — frame property of `getTaxonomyIds` -/

/-- C10: an absent or empty category-name list means the category listing
endpoint is never contacted (0 page requests) and `categoryIds = []`,
symmetrically for tags; and each kind's ids and request count are
independent of the other kind's server and name list — the two indexes are
separate objects. -/
theorem C10_taxonomy_kind_isolation :
    (∀ cp tp tn, (getTaxonomyIds cp tp none tn).1.categoryIds = [] ∧
      (getTaxonomyIds cp tp none tn).2.1 = 0) ∧
    (∀ cp tp tn, (getTaxonomyIds cp tp (some []) tn).1.categoryIds = [] ∧
      (getTaxonomyIds cp tp (some []) tn).2.1 = 0) ∧
    (∀ cp tp cn, (getTaxonomyIds cp tp cn none).1.tagIds = [] ∧
      (getTaxonomyIds cp tp cn none).2.2 = 0) ∧
    (∀ cp tp cn, (getTaxonomyIds cp tp cn (some [])).1.tagIds = [] ∧
      (getTaxonomyIds cp tp cn (some [])).2.2 = 0) ∧
    (∀ cp tp tp' cn tn tn',
      (getTaxonomyIds cp tp cn tn).1.categoryIds =
        (getTaxonomyIds cp tp' cn tn').1.categoryIds ∧
      (getTaxonomyIds cp tp cn tn).2.1 = (getTaxonomyIds cp tp' cn tn').2.1) ∧
    (∀ cp cp' tp cn cn' tn,
      (getTaxonomyIds cp tp cn tn).1.tagIds =
        (getTaxonomyIds cp' tp cn' tn).1.tagIds ∧
      (getTaxonomyIds cp tp cn tn).2.2 = (getTaxonomyIds cp' tp cn' tn).2.2) :=
  ⟨fun _ _ _ => ⟨rfl, rfl⟩, fun _ _ _ => ⟨rfl, rfl⟩,
   fun _ _ cn => by cases cn <;> exact ⟨rfl, rfl⟩,
   fun _ _ cn => by cases cn <;> exact ⟨rfl, rfl⟩,
   fun _ _ _ _ _ _ => ⟨rfl, rfl⟩,
   fun _ _ _ _ _ _ => ⟨rfl, rfl⟩⟩

/-! ## Claim C6 — failure isolation of tag creation -/

/-- A fold step that leaves the accumulator unchanged on one element can be
dropped from the middle of the input list. -/
theorem foldl_middle_id {α β : Type} (f : List α → β → List α) (x : β)
    (h : ∀ acc, f acc x = acc) (xs ys : List β) (init : List α) :
    (xs ++ x :: ys).foldl f init = (xs ++ ys).foldl f init := by
  simp [List.foldl_append, h]

/-- C6: tag creation is failure-isolated — an over-long name is skipped
without affecting the rest of the batch, a name whose create request throws
is skipped without aborting the remaining creations (the function is total:
every failure is caught), and in the concrete 3-name scenario where the
second create throws, exactly the ids of the first and third creations are
returned, in that order. -/
theorem C6_tag_creation_isolated (create : String → Except Unit (Option Nat))
    (pre post : List String) (name : String) :
    (200 < name.length →
      createNewTags create (pre ++ name :: post) =
        createNewTags create (pre ++ post)) ∧
    (name.length ≤ 200 → create name = Except.error () →
      createNewTags create (pre ++ name :: post) =
        createNewTags create (pre ++ post)) ∧
    createNewTags cServer ["alpha", "beta", "gamma"] = [1, 3] := by
  refine ⟨fun h => ?_, fun h1 h2 => ?_, by decide⟩
  · simp only [createNewTags]
    exact foldl_middle_id _ _ (fun acc => by simp [h]) pre post []
  · simp only [createNewTags]
    refine foldl_middle_id _ _ (fun acc => ?_) pre post []
    have h3 : ¬ (200 < name.length) := by omega
    simp [h3, h2]

/-- The long mock tag name really is over the limit. -/
theorem longLen : 200 < longName.length := by
  show 200 < (List.replicate 201 'x').length
  rw [List.length_replicate]
  omega

/-- C6 witness: a 201-character name is skipped without failing the batch,
and the creation that throws (`"beta"`) does not abort the others. -/
theorem C6_tag_creation_isolated_witness :
    (200 < longName.length ∧
      createNewTags cServer ([] ++ longName :: ["alpha"]) =
        createNewTags cServer ([] ++ ["alpha"])) ∧
    ("beta".length ≤ 200 ∧ cServer "beta" = Except.error () ∧
      createNewTags cServer (["alpha"] ++ "beta" :: ["gamma"]) =
        createNewTags cServer (["alpha"] ++ ["gamma"])) :=
  ⟨⟨longLen, (C6_tag_creation_isolated cServer [] ["alpha"] longName).1
      longLen⟩,
   ⟨by decide, rfl,
    (C6_tag_creation_isolated cServer ["alpha"] ["gamma"] "beta").2.1
      (by decide) rfl⟩⟩

/-! ## Claims C4 and C5 — pagination and partial failure

Helper lemmas about `fetchAllTaxonomies` and index membership. -/

/-- A run of full pages (`length = 100` each) is consumed one page request
per page, accumulating every item, before the loop looks at what follows. -/
theorem fetchAll_full_pages (front : List (List TaxItem))
    (rest : List (Except Unit (List TaxItem))) (cache : Index)
    (hf : ∀ p ∈ front, p.length = 100) :
    fetchAllTaxonomies (front.map Except.ok ++ rest) cache =
      ((fetchAllTaxonomies rest (front.flatten.foldl addItem cache)).1,
       (fetchAllTaxonomies rest (front.flatten.foldl addItem cache)).2 +
         front.length) := by
  induction front generalizing cache with
  | nil => simp
  | cons p front ih =>
    have hp : p.length = 100 := hf p (by simp)
    have hf' : ∀ q ∈ front, q.length = 100 := fun q hq => hf q (by simp [hq])
    simp only [List.map_cons, List.cons_append, fetchAllTaxonomies,
      List.append_eq]
    rw [if_neg (by omega), if_neg (by omega), ih _ hf']
    simp only [List.flatten_cons, List.foldl_append, List.length_cons]
    exact Prod.ext rfl (by omega)

/-- A short final page (`0 < length < 100`) is consumed in one request and
ends the loop. -/
theorem fetchAll_short_page (items : List TaxItem) (cache : Index)
    (h0 : items.length ≠ 0) (h1 : items.length < 100) :
    fetchAllTaxonomies [Except.ok items] cache =
      (items.foldl addItem cache, 1) := by
  simp only [fetchAllTaxonomies]
  rw [if_neg h0, if_pos h1]

/-- `insertIdx` stores its key. -/
theorem lookupIdx_insertIdx_self (idx : Index) (k : String) (v : Nat) :
    lookupIdx (insertIdx idx k v) k = some v := by
  induction idx with
  | nil => simp [insertIdx, lookupIdx]
  | cons kv rest ih =>
    obtain ⟨k', v'⟩ := kv
    by_cases hk : k' = k
    · simp [insertIdx, hk, lookupIdx]
    · simp [insertIdx, hk, lookupIdx, ih]

/-- `insertIdx` never removes a present key. -/
theorem lookupIdx_insertIdx_isSome (idx : Index) (k k' : String) (v : Nat)
    (h : (lookupIdx idx k).isSome = true) :
    (lookupIdx (insertIdx idx k' v) k).isSome = true := by
  induction idx with
  | nil => simp [lookupIdx] at h
  | cons kv rest ih =>
    obtain ⟨k₀, v₀⟩ := kv
    by_cases h0 : k₀ = k'
    · subst h0
      simp only [insertIdx, if_pos rfl]
      by_cases hke : k₀ = k <;> simp [lookupIdx, hke] at h ⊢
      exact h
    · simp only [insertIdx, if_neg h0]
      by_cases hke : k₀ = k <;> simp [lookupIdx, hke] at h ⊢
      exact ih h

/-- `addItem` never removes a present key. -/
theorem lookupIdx_addItem_isSome (cache : Index) (item : TaxItem)
    (k : String) (h : (lookupIdx cache k).isSome = true) :
    (lookupIdx (addItem cache item) k).isSome = true := by
  obtain ⟨oid, onm, osl⟩ := item
  cases oid with
  | none => exact h
  | some i =>
    cases onm with
    | none => exact h
    | some nm =>
      cases osl with
      | none =>
        simp only [addItem]
        by_cases hg : i ≠ 0 ∧ nm ≠ ""
        · rw [if_pos hg]
          exact lookupIdx_insertIdx_isSome _ _ _ _
            (lookupIdx_insertIdx_isSome _ _ _ _ h)
        · rw [if_neg hg]
          exact h
      | some sl =>
        simp only [addItem]
        by_cases hg : i ≠ 0 ∧ nm ≠ ""
        · rw [if_pos hg]
          by_cases hs : sl ≠ ""
          · rw [if_pos hs]
            exact lookupIdx_insertIdx_isSome _ _ _ _
              (lookupIdx_insertIdx_isSome _ _ _ _
                (lookupIdx_insertIdx_isSome _ _ _ _
                  (lookupIdx_insertIdx_isSome _ _ _ _ h)))
          · rw [if_neg hs]
            exact lookupIdx_insertIdx_isSome _ _ _ _
              (lookupIdx_insertIdx_isSome _ _ _ _ h)
        · rw [if_neg hg]
          exact h

/-- A fold of `addItem` never removes a present key. -/
theorem lookupIdx_foldl_addItem_isSome (items : List TaxItem) (cache : Index)
    (k : String) (h : (lookupIdx cache k).isSome = true) :
    (lookupIdx (items.foldl addItem cache) k).isSome = true := by
  induction items generalizing cache with
  | nil => exact h
  | cons it items ih =>
    exact ih _ (lookupIdx_addItem_isSome _ _ _ h)

/-- Processing an item with a truthy id and name makes its normalized name
present in the index. -/
theorem lookupIdx_addItem_self (cache : Index) (item : TaxItem)
    (i : Nat) (nm : String) (hid : item.id = some i) (hi : i ≠ 0)
    (hnm : item.name = some nm) (hne : nm ≠ "") :
    (lookupIdx (addItem cache item) (normalizeTaxonomyName nm)).isSome
      = true := by
  obtain ⟨oid, onm, osl⟩ := item
  simp only at hid hnm
  subst hid; subst hnm
  have base : (lookupIdx
      (insertIdx (insertIdx cache (normalizeTaxonomyName nm) i) (lowerStr nm) i)
      (normalizeTaxonomyName nm)).isSome = true :=
    lookupIdx_insertIdx_isSome _ _ _ _
      (by simp [lookupIdx_insertIdx_self])
  cases osl with
  | none =>
    simp only [addItem, if_pos (And.intro hi hne)]
    exact base
  | some sl =>
    simp only [addItem, if_pos (And.intro hi hne)]
    by_cases hs : sl ≠ ""
    · rw [if_pos hs]
      exact lookupIdx_insertIdx_isSome _ _ _ _
        (lookupIdx_insertIdx_isSome _ _ _ _ base)
    · rw [if_neg hs]
      exact base

/-- After folding a list of items into the index, every member item with a
truthy id and name is present under its normalized name. -/
theorem lookupIdx_foldl_addItem_mem (items : List TaxItem) (cache : Index)
    (item : TaxItem) (hmem : item ∈ items) (i : Nat) (nm : String)
    (hid : item.id = some i) (hi : i ≠ 0) (hnm : item.name = some nm)
    (hne : nm ≠ "") :
    (lookupIdx (items.foldl addItem cache) (normalizeTaxonomyName nm)).isSome
      = true := by
  induction items generalizing cache with
  | nil => cases hmem
  | cons it items ih =>
    rcases List.mem_cons.mp hmem with h | h
    · subst h
      exact lookupIdx_foldl_addItem_isSome items (addItem cache item) _
        (lookupIdx_addItem_self cache item i nm hid hi hnm hne)
    · exact ih (addItem cache it) h

/-- Prepending `"tag "` never yields the empty string. -/
theorem tag_append_ne_empty (x : String) : ("tag " ++ x) ≠ "" := by
  intro h
  have h2 : ("tag " ++ x).data = ("" : String).data := by rw [h]
  simp [String.data_append] at h2

/-- The concrete 250-item fetch, evaluated through the page-run lemmas. -/
theorem fetchAll_pages250 :
    fetchAllTaxonomies pages250 [] = (items250.foldl addItem [], 3) := by
  have hfront : ∀ p ∈ [page1, page2], p.length = 100 := by
    intro p hp
    rcases List.mem_cons.mp hp with h | h
    · subst h; simp [page1]
    · rcases List.mem_cons.mp h with h | h
      · subst h; simp [page2]
      · cases h
  have h3 : page3.length ≠ 0 := by simp [page3]
  have h4 : page3.length < 100 := by simp [page3]
  have hmain := fetchAll_full_pages [page1, page2] [Except.ok page3] []
    hfront
  have hshort := fetchAll_short_page page3
    (([page1, page2].flatten).foldl addItem []) h3 h4
  have hpages : pages250 = [page1, page2].map Except.ok ++ [Except.ok page3] :=
    rfl
  rw [hpages, hmain, hshort]
  simp [items250, List.foldl_append]

/-! ## Claim C4 — pagination of the taxonomy fetch -/

set_option maxRecDepth 4000 in
/-- C4: the fetch loop requests pages starting at page 1 and keeps
incrementing while full pages (100 items) arrive: a run of full pages
followed by a short page costs exactly one request per page and accumulates
every delivered item into the index; in particular the mock 250-item
listing (pages of 100/100/50) is fetched in exactly 3 page requests, and
the resulting index contains the normalized name of each of the 250
items. -/
theorem C4_pagination (front : List (List TaxItem)) (last : List TaxItem)
    (cache : Index) (hf : ∀ p ∈ front, p.length = 100)
    (h0 : last.length ≠ 0) (h1 : last.length < 100) :
    fetchAllTaxonomies (front.map Except.ok ++ [Except.ok last]) cache =
      ((front.flatten ++ last).foldl addItem cache, front.length + 1) ∧
    (fetchAllTaxonomies pages250 []).2 = 3 ∧
    items250.length = 250 ∧
    ∀ item ∈ items250, ∃ nm, item.name = some nm ∧
      (lookupIdx (fetchAllTaxonomies pages250 []).1
        (normalizeTaxonomyName nm)).isSome = true := by
  refine ⟨?_, by rw [fetchAll_pages250], ?_, ?_⟩
  · rw [fetchAll_full_pages front [Except.ok last] cache hf,
      fetchAll_short_page last _ h0 h1]
    simp [List.foldl_append]
    omega
  · simp only [items250, List.length_append, page1, page2, page3,
      List.length_map, List.length_range]
  · intro item hmem
    have : ∃ j, item = mkItem j := by
      simp only [items250, page1, page2, page3, List.mem_append,
        List.mem_map, List.mem_range] at hmem
      rcases hmem with (⟨j, _, hj⟩ | ⟨j, _, hj⟩) | ⟨j, _, hj⟩ <;>
        exact ⟨_, hj.symm⟩
    obtain ⟨j, hj⟩ := this
    refine ⟨"tag " ++ Nat.repr j, by rw [hj]; rfl, ?_⟩
    rw [fetchAll_pages250]
    exact lookupIdx_foldl_addItem_mem items250 [] item hmem (j + 1)
      ("tag " ++ Nat.repr j) (by rw [hj]; rfl) (by omega)
      (by rw [hj]; rfl) (tag_append_ne_empty _)

/-- C4 witness: the mock 250-item listing is fetched in exactly 3 page
requests. -/
theorem C4_pagination_witness : (fetchAllTaxonomies pages250 []).2 = 3 :=
  (C4_pagination [page1, page2] page3 []
    (by
      intro p hp
      rcases List.mem_cons.mp hp with h | h
      · subst h; simp [page1]
      · rcases List.mem_cons.mp h with h | h
        · subst h; simp [page2]
        · cases h)
    (by simp [page3]) (by simp [page3])).2.1

/-! ## Claim C5 — partial failure of the taxonomy fetch -/

/-- C5: a transport/HTTP failure on any page stops pagination immediately:
after a run of full pages, a failing page leaves the index with exactly the
entries accumulated from the pages fetched before the failure, whatever
responses would have followed; the function is total (the error is caught),
so it never raises.  In particular, when page 2 of a 3-page fetch throws,
the index contains only page 1's items, after exactly 2 page requests. -/
theorem C5_partial_failure (front : List (List TaxItem)) (e : Unit)
    (rest : List (Except Unit (List TaxItem))) (cache : Index)
    (hf : ∀ p ∈ front, p.length = 100) :
    fetchAllTaxonomies (front.map Except.ok ++ Except.error e :: rest) cache =
      (front.flatten.foldl addItem cache, front.length + 1) ∧
    fetchAllTaxonomies [Except.ok page1, Except.error (), Except.ok page3] []
      = (page1.foldl addItem [], 2) := by
  constructor
  · rw [fetchAll_full_pages front (Except.error e :: rest) cache hf]
    simp [fetchAllTaxonomies]
    omega
  · have h1 : ∀ p ∈ [page1], p.length = 100 := by
      intro p hp
      rcases List.mem_cons.mp hp with h | h
      · subst h; simp [page1]
      · cases h
    have := fetchAll_full_pages [page1] (Except.error () :: [Except.ok page3])
      [] h1
    simp only [List.map_cons, List.map_nil, List.singleton_append,
      List.flatten_cons, List.flatten_nil, List.append_nil,
      List.length_cons, List.length_nil] at this
    rw [show ([Except.ok page1, Except.error (), Except.ok page3] :
        List (Except Unit (List TaxItem))) =
      Except.ok page1 :: Except.error () :: [Except.ok page3] from rfl, this]
    simp [fetchAllTaxonomies]

/-- C5 witness: the concrete page-2 failure, through the general part of
the claim. -/
theorem C5_partial_failure_witness :
    fetchAllTaxonomies ([page1].map Except.ok ++
        Except.error () :: [Except.ok page3]) [] =
      ([page1].flatten.foldl addItem [], [page1].length + 1) :=
  (C5_partial_failure [page1] () [Except.ok page3] []
    (by
      intro p hp
      rcases List.mem_cons.mp hp with h | h
      · subst h; simp [page1]
      · cases h)).1

/-! ## Claim C1 — idempotence of normalization

`normalizeTaxonomyName` is not idempotent on all inputs: each entity
`.replace` is a single left-to-right pass, so decoding can manufacture a
new decodable occurrence (`"&amp;amp;"` → `"&amp;"` → `"&"`).  On strings
without `'&'` no entity can occur in either pass and idempotence holds;
the lemmas below establish, stage by stage, that the output of the first
pass is a fixed point of every stage of the second pass. -/

/-- A valid code point below the surrogate range round-trips through
`Char.ofNat`. -/
theorem char_toNat_ofNat {n : Nat} (h : n < 55296) :
    (Char.ofNat n).toNat = n := by
  unfold Char.ofNat
  rw [dif_pos (Or.inl h)]
  rfl

/-- `jsToLower` fixes characters outside `A`–`Z`. -/
theorem jsToLower_eq_self {c : Char} (h : ¬(65 ≤ c.toNat ∧ c.toNat ≤ 90)) :
    jsToLower c = c := by
  simp only [jsToLower, if_neg h]

/-- `jsToLower` sends `A`–`Z` into `a`–`z`. -/
theorem jsToLower_toNat_of_upper {c : Char}
    (h : 65 ≤ c.toNat ∧ c.toNat ≤ 90) :
    (jsToLower c).toNat = c.toNat + 32 := by
  simp only [jsToLower, if_pos h]
  exact char_toNat_ofNat (by omega)

/-- The output of `jsToLower` is never an upper-case ASCII letter. -/
theorem jsToLower_not_upper (c : Char) :
    ¬(65 ≤ (jsToLower c).toNat ∧ (jsToLower c).toNat ≤ 90) := by
  by_cases h : 65 ≤ c.toNat ∧ c.toNat ≤ 90
  · rw [jsToLower_toNat_of_upper h]
    omega
  · rw [jsToLower_eq_self h]
    exact h

/-- `jsToLower` cannot produce a character whose code point lies outside
`a`–`z` unless that character was the input itself. -/
theorem jsToLower_eq_or_lower (c : Char) :
    jsToLower c = c ∨
      (97 ≤ (jsToLower c).toNat ∧ (jsToLower c).toNat ≤ 122) := by
  by_cases h : 65 ≤ c.toNat ∧ c.toNat ≤ 90
  · right
    rw [jsToLower_toNat_of_upper h]
    omega
  · left
    exact jsToLower_eq_self h

/-- Unequal code points give unequal characters. -/
theorem char_ne_of_toNat_ne {c d : Char} (h : c.toNat ≠ d.toNat) : c ≠ d :=
  fun hc => h (by rw [hc])

/-- `replaceGo` cannot fire when a character of the pattern is absent from
the input, so the input is returned unchanged. -/
theorem replaceGo_eq_self (pat rep : List Char) (a : Char) (ha : a ∈ pat) :
    ∀ s : List Char, a ∉ s → replaceGo pat rep 0 s = s := by
  intro s
  induction s with
  | nil => intro _; rfl
  | cons c rest ih =>
    intro hs
    have hp : ¬ pat.isPrefixOf (c :: rest) = true := by
      intro hpre
      exact hs ((List.isPrefixOf_iff_prefix.mp hpre).subset ha)
    simp only [replaceGo, Bool.not_eq_true] at hp ⊢
    rw [if_neg (by simp [hp]), ih (fun hmem => hs (List.mem_cons_of_mem _ hmem))]

/-- Characters of `replaceGo`'s output come from the replacement or from
the input. -/
theorem mem_replaceGo (pat rep : List Char) (d : Char) :
    ∀ (s : List Char) (skip : Nat), d ∈ replaceGo pat rep skip s →
      d ∈ rep ∨ d ∈ s := by
  intro s
  induction s with
  | nil => intro skip h; simp [replaceGo] at h
  | cons c rest ih =>
    intro skip h
    cases skip with
    | succ k =>
      rcases ih k h with h' | h'
      · exact Or.inl h'
      · exact Or.inr (List.mem_cons_of_mem _ h')
    | zero =>
      simp only [replaceGo] at h
      by_cases hp : pat.isPrefixOf (c :: rest) = true
      · rw [if_pos hp] at h
        rcases List.mem_append.mp h with h' | h'
        · exact Or.inl h'
        · rcases ih _ h' with h'' | h''
          · exact Or.inl h''
          · exact Or.inr (List.mem_cons_of_mem _ h'')
      · rw [if_neg hp] at h
        rcases List.mem_cons.mp h with h' | h'
        · exact Or.inr (h' ▸ List.mem_cons_self c rest)
        · rcases ih 0 h' with h'' | h''
          · exact Or.inl h''
          · exact Or.inr (List.mem_cons_of_mem _ h'')

/-- `replaceClass` fixes a string containing no class character. -/
theorem replaceClass_eq_self (cls rep : List Char) :
    ∀ s : List Char, (∀ c ∈ s, c ∉ cls) → replaceClass cls rep s = s := by
  intro s
  induction s with
  | nil => intro _; rfl
  | cons c rest ih =>
    intro h
    simp only [replaceClass,
      if_neg (h c (List.mem_cons_self c rest))]
    rw [ih (fun x hx => h x (List.mem_cons_of_mem _ hx))]

/-- Characters of `replaceClass`'s output come from the replacement or are
input characters outside the class. -/
theorem mem_replaceClass (cls rep : List Char) (d : Char) :
    ∀ s : List Char, d ∈ replaceClass cls rep s →
      d ∈ rep ∨ (d ∈ s ∧ d ∉ cls) := by
  intro s
  induction s with
  | nil => intro h; cases h
  | cons c rest ih =>
    intro h
    simp only [replaceClass] at h
    by_cases hc : c ∈ cls
    · rw [if_pos hc] at h
      rcases List.mem_append.mp h with h' | h'
      · exact Or.inl h'
      · rcases ih h' with h'' | ⟨h1, h2⟩
        · exact Or.inl h''
        · exact Or.inr ⟨List.mem_cons_of_mem _ h1, h2⟩
    · rw [if_neg hc] at h
      rcases List.mem_cons.mp h with h' | h'
      · exact Or.inr ⟨h' ▸ List.mem_cons_self c rest, h' ▸ hc⟩
      · rcases ih h' with h'' | ⟨h1, h2⟩
        · exact Or.inl h''
        · exact Or.inr ⟨List.mem_cons_of_mem _ h1, h2⟩

/-- A class character not reintroduced by the replacement is absent from
`replaceClass`'s output. -/
theorem not_mem_replaceClass (cls rep : List Char) (d : Char) (hd : d ∈ cls)
    (hr : d ∉ rep) (s : List Char) : d ∉ replaceClass cls rep s := by
  intro h
  rcases mem_replaceClass cls rep d s h with h' | ⟨_, h2⟩
  · exact hr h'
  · exact h2 hd

/-- `replaceAll` fixes inputs missing a pattern character. -/
theorem replaceAll_eq_self (pat rep : List Char) (a : Char) (ha : a ∈ pat)
    (s : List Char) (hs : a ∉ s) : replaceAll pat rep s = s :=
  replaceGo_eq_self pat rep a ha s hs

/-- The entity-decode chain fixes any string without `'&'` (every pattern
of the table contains `'&'`). -/
theorem decodeEntities_eq_self (s : List Char) (hs : '&' ∉ s) :
    decodeEntities s = s := by
  simp only [decodeEntities, entityPairs, List.foldl_cons, List.foldl_nil]
  rw [replaceAll_eq_self _ _ '&' (by decide) s hs,
    replaceAll_eq_self _ _ '&' (by decide) s hs,
    replaceAll_eq_self _ _ '&' (by decide) s hs,
    replaceAll_eq_self _ _ '&' (by decide) s hs,
    replaceAll_eq_self _ _ '&' (by decide) s hs,
    replaceAll_eq_self _ _ '&' (by decide) s hs,
    replaceAll_eq_self _ _ '&' (by decide) s hs,
    replaceAll_eq_self _ _ '&' (by decide) s hs,
    replaceAll_eq_self _ _ '&' (by decide) s hs]

/-- Characters of a `replaceClass` chain's output come from the input or
from one of the replacements. -/
theorem mem_foldl_replaceClass (pairs : List (List Char × List Char))
    (d : Char) :
    ∀ s, d ∈ pairs.foldl (fun acc pr => replaceClass pr.1 pr.2 acc) s →
      d ∈ s ∨ ∃ pr ∈ pairs, d ∈ pr.2 := by
  induction pairs with
  | nil => intro s h; exact Or.inl h
  | cons pr pairs ih =>
    intro s h
    simp only [List.foldl_cons] at h
    rcases ih _ h with h' | ⟨pr', hm, hd⟩
    · rcases mem_replaceClass pr.1 pr.2 d s h' with h'' | ⟨h1, _⟩
      · exact Or.inr ⟨pr, List.mem_cons_self _ _, h''⟩
      · exact Or.inl h1
    · exact Or.inr ⟨pr', List.mem_cons_of_mem _ hm, hd⟩

/-- A `replaceClass` chain fixes a string containing no class character of
any of its stages. -/
theorem foldl_replaceClass_eq_self (pairs : List (List Char × List Char)) :
    ∀ s, (∀ pr ∈ pairs, ∀ c ∈ s, c ∉ pr.1) →
      pairs.foldl (fun acc pr => replaceClass pr.1 pr.2 acc) s = s := by
  induction pairs with
  | nil => intro s _; rfl
  | cons pr pairs ih =>
    intro s h
    simp only [List.foldl_cons]
    rw [replaceClass_eq_self pr.1 pr.2 s
      (fun c hc => h pr (List.mem_cons_self _ _) c hc)]
    exact ih s (fun pr' hpr' c hc => h pr' (List.mem_cons_of_mem _ hpr') c hc)

/-- A character absent from the input and from every replacement stays
absent through a `replaceClass` chain. -/
theorem not_mem_foldl_replaceClass (pairs : List (List Char × List Char))
    (d : Char) (hreps : ∀ pr ∈ pairs, d ∉ pr.2) :
    ∀ s, d ∉ s → d ∉ pairs.foldl (fun acc pr => replaceClass pr.1 pr.2 acc) s := by
  induction pairs with
  | nil => intro s hs; exact hs
  | cons pr pairs ih =>
    intro s hs
    simp only [List.foldl_cons]
    refine ih (fun pr' hpr' => hreps pr' (List.mem_cons_of_mem _ hpr')) _ ?_
    intro h
    rcases mem_replaceClass pr.1 pr.2 d s h with h' | ⟨h1, _⟩
    · exact hreps pr (List.mem_cons_self _ _) h'
    · exact hs h1

/-- A class character of one stage that no replacement reintroduces is
absent from the chain's output. -/
theorem not_mem_foldl_replaceClass_of_cls
    (pairs : List (List Char × List Char)) (d : Char) :
    ∀ pr ∈ pairs, d ∈ pr.1 → (∀ pr' ∈ pairs, d ∉ pr'.2) →
      ∀ s, d ∉ pairs.foldl (fun acc pr => replaceClass pr.1 pr.2 acc) s := by
  induction pairs with
  | nil => intro pr hpr; cases hpr
  | cons pr0 pairs ih =>
    intro pr hpr hd hreps s
    rcases List.mem_cons.mp hpr with h | h
    · simp only [List.foldl_cons]
      refine not_mem_foldl_replaceClass pairs d
        (fun pr' hpr' => hreps pr' (List.mem_cons_of_mem _ hpr')) _ ?_
      subst h
      exact not_mem_replaceClass pr.1 pr.2 d hd
        (hreps pr (List.mem_cons_self _ _)) s
    · simp only [List.foldl_cons]
      exact ih pr h hd
        (fun pr' hpr' => hreps pr' (List.mem_cons_of_mem _ hpr')) _

/-- Characters of `collapseGo`'s output are spaces or input characters. -/
theorem mem_collapseGo (d : Char) :
    ∀ (s : List Char) (b : Bool), d ∈ collapseGo b s → d = ' ' ∨ d ∈ s := by
  intro s
  induction s with
  | nil => intro b h; simp [collapseGo] at h
  | cons c rest ih =>
    intro b h
    simp only [collapseGo] at h
    by_cases hw : isJsWhitespace c = true
    · rw [if_pos hw] at h
      cases b with
      | true =>
        rcases ih true h with h' | h'
        · exact Or.inl h'
        · exact Or.inr (List.mem_cons_of_mem _ h')
      | false =>
        rcases List.mem_cons.mp h with h' | h'
        · exact Or.inl h'
        · rcases ih true h' with h'' | h''
          · exact Or.inl h''
          · exact Or.inr (List.mem_cons_of_mem _ h'')
    · rw [if_neg hw] at h
      rcases List.mem_cons.mp h with h' | h'
      · exact Or.inr (h' ▸ List.mem_cons_self c rest)
      · rcases ih false h' with h'' | h''
        · exact Or.inl h''
        · exact Or.inr (List.mem_cons_of_mem _ h'')

/-- Every whitespace character of `collapseGo`'s output is a plain
space. -/
theorem ws_collapseGo_space (d : Char) :
    ∀ (s : List Char) (b : Bool), d ∈ collapseGo b s →
      isJsWhitespace d = true → d = ' ' := by
  intro s
  induction s with
  | nil => intro b h; simp [collapseGo] at h
  | cons c rest ih =>
    intro b h hd
    simp only [collapseGo] at h
    by_cases hw : isJsWhitespace c = true
    · rw [if_pos hw] at h
      cases b with
      | true => exact ih true h hd
      | false =>
        rcases List.mem_cons.mp h with h' | h'
        · exact h'
        · exact ih true h' hd
    · rw [if_neg hw] at h
      rcases List.mem_cons.mp h with h' | h'
      · exact absurd (h' ▸ hd) (by simp [hw])
      · exact ih false h' hd

/-- After a whitespace run has been emitted, the next output character is
not whitespace. -/
theorem head_collapseGo_true :
    ∀ (s : List Char) (y : Char), (collapseGo true s).head? = some y →
      isJsWhitespace y = false := by
  intro s
  induction s with
  | nil => intro y h; simp [collapseGo] at h
  | cons c rest ih =>
    intro y h
    simp only [collapseGo] at h
    by_cases hw : isJsWhitespace c = true
    · rw [if_pos hw] at h
      exact ih y h
    · rw [if_neg hw] at h
      simp only [List.head?_cons, Option.some_inj] at h
      rw [← h]
      simpa using hw

/-- Adjacent characters of `collapseGo`'s output are never both
whitespace. -/
theorem chain_collapseGo :
    ∀ (s : List Char) (b : Bool),
      List.Chain' (fun a d => isJsWhitespace a = false ∨
        isJsWhitespace d = false) (collapseGo b s) := by
  intro s
  induction s with
  | nil => intro b; simp [collapseGo]
  | cons c rest ih =>
    intro b
    simp only [collapseGo]
    by_cases hw : isJsWhitespace c = true
    · rw [if_pos hw]
      cases b with
      | true => exact ih true
      | false =>
        refine List.chain'_cons'.mpr ⟨?_, ih true⟩
        intro y hy
        exact Or.inr (head_collapseGo_true rest y hy)
    · rw [if_neg hw]
      refine List.chain'_cons'.mpr ⟨?_, ih false⟩
      intro y _
      exact Or.inl (by simpa using hw)

/-- `collapseGo` on a non-whitespace head emits it and resets the run
flag. -/
theorem collapseGo_cons_not_ws {d : Char} (hd : isJsWhitespace d = false)
    (b : Bool) (tl : List Char) :
    collapseGo b (d :: tl) = d :: collapseGo false tl := by
  simp [collapseGo, hd]

/-- `collapseGo` outside a run emits a space on a whitespace head. -/
theorem collapseGo_cons_ws {c : Char} (hw : isJsWhitespace c = true)
    (tl : List Char) :
    collapseGo false (c :: tl) = ' ' :: collapseGo true tl := by
  simp [collapseGo, hw]

/-- On a string whose whitespace is single plain spaces with no two
adjacent, the collapse pass is the identity. -/
theorem collapseGo_false_eq_self :
    ∀ l : List Char, (∀ c ∈ l, isJsWhitespace c = true → c = ' ') →
      List.Chain' (fun a d => isJsWhitespace a = false ∨
        isJsWhitespace d = false) l →
      collapseGo false l = l := by
  intro l
  induction l with
  | nil => intro _ _; rfl
  | cons c rest ih =>
    intro h1 h2
    by_cases hw : isJsWhitespace c = true
    · have hc : c = ' ' := h1 c (List.mem_cons_self c rest) hw
      have htail : collapseGo true rest = rest := by
        cases rest with
        | nil => rfl
        | cons d tl =>
          have hd : isJsWhitespace d = false := by
            rcases (List.chain'_cons'.mp h2).1 d rfl with h' | h'
            · rw [hw] at h'; cases h'
            · exact h'
          have hih := ih (fun x hx => h1 x (List.mem_cons_of_mem _ hx))
            (List.chain'_cons'.mp h2).2
          rw [collapseGo_cons_not_ws hd true tl,
            ← collapseGo_cons_not_ws hd false tl, hih]
      rw [collapseGo_cons_ws hw rest, htail, hc]
    · have hd : isJsWhitespace c = false := by simpa using hw
      rw [collapseGo_cons_not_ws hd false rest,
        ih (fun x hx => h1 x (List.mem_cons_of_mem _ hx))
          (List.chain'_cons'.mp h2).2]

/-- `dropWhile` is idempotent. -/
theorem dropWhile_dropWhile_self (p : Char → Bool) :
    ∀ l : List Char, (l.dropWhile p).dropWhile p = l.dropWhile p := by
  intro l
  induction l with
  | nil => rfl
  | cons c t ih =>
    by_cases h : p c = true
    · simp only [List.dropWhile_cons, h, if_pos rfl]
      simpa [h] using ih
    · simp [List.dropWhile_cons, h]

/-- The first character surviving `dropWhile` fails the predicate. -/
theorem head_dropWhile_false (p : Char → Bool) :
    ∀ (l : List Char) (y : Char), (l.dropWhile p).head? = some y →
      p y = false := by
  intro l
  induction l with
  | nil => intro y h; simp at h
  | cons c t ih =>
    intro y h
    by_cases hc : p c = true
    · rw [List.dropWhile_cons, if_pos hc] at h
      exact ih y h
    · rw [List.dropWhile_cons, if_neg hc, List.head?_cons,
        Option.some_inj] at h
      rw [← h]
      simpa using hc

/-- `dropWhile` fixes a list whose head fails the predicate. -/
theorem dropWhile_eq_self_of_head (p : Char → Bool) (l : List Char)
    (h : ∀ y, l.head? = some y → p y = false) : l.dropWhile p = l := by
  cases l with
  | nil => rfl
  | cons c t =>
    rw [List.dropWhile_cons, if_neg (by simp [h c rfl])]

/-- `jsTrim` is idempotent: its output has no leading and no trailing
whitespace. -/
theorem jsTrim_jsTrim (x : List Char) : jsTrim (jsTrim x) = jsTrim x := by
  unfold jsTrim
  generalize hA : x.dropWhile isJsWhitespace = a
  have hcself : (a.reverse.dropWhile isJsWhitespace).dropWhile isJsWhitespace
      = a.reverse.dropWhile isJsWhitespace := dropWhile_dropWhile_self _ _
  have hstepA :
      ((a.reverse.dropWhile isJsWhitespace).reverse).dropWhile isJsWhitespace
        = (a.reverse.dropWhile isJsWhitespace).reverse := by
    refine dropWhile_eq_self_of_head _ _ ?_
    intro y hy
    rw [List.head?_reverse] at hy
    have hcne : a.reverse.dropWhile isJsWhitespace ≠ [] := by
      intro hnil
      rw [hnil] at hy
      simp at hy
    obtain ⟨t, ht⟩ := List.dropWhile_suffix (l := a.reverse) isJsWhitespace
    have hlast : a.reverse.getLast? = some y := by
      rw [← ht, List.getLast?_append_of_ne_nil t hcne]
      exact hy
    rw [List.getLast?_reverse] at hlast
    exact head_dropWhile_false isJsWhitespace x y (hA ▸ hlast)
  rw [hstepA, List.reverse_reverse, hcself]

/-- `jsTrim` only removes characters. -/
theorem mem_jsTrim (c : Char) (l : List Char) (h : c ∈ jsTrim l) : c ∈ l := by
  unfold jsTrim at h
  rw [List.mem_reverse] at h
  have h2 := (List.dropWhile_suffix isJsWhitespace).subset h
  rw [List.mem_reverse] at h2
  exact (List.dropWhile_suffix isJsWhitespace).subset h2

/-- `jsTrim` keeps whitespace-separation of adjacent characters. -/
theorem chain_jsTrim (l : List Char)
    (h : List.Chain' (fun a d => isJsWhitespace a = false ∨
      isJsWhitespace d = false) l) :
    List.Chain' (fun a d => isJsWhitespace a = false ∨
      isJsWhitespace d = false) (jsTrim l) := by
  unfold jsTrim
  have h1 := h.suffix (List.dropWhile_suffix isJsWhitespace)
  have h2 := List.chain'_reverse.mpr (h1.imp (fun a d hab => Or.symm hab))
  have h3 := h2.suffix (List.dropWhile_suffix isJsWhitespace)
  exact List.chain'_reverse.mpr (h3.imp (fun a d hab => Or.symm hab))

/-- `jsToLower` cannot produce a character outside `a`–`z` that differs
from its input. -/
theorem jsToLower_ne {c d : Char} (hd : d.toNat < 97 ∨ 122 < d.toNat)
    (hne : c ≠ d) : jsToLower c ≠ d := by
  rcases jsToLower_eq_or_lower c with he | hl
  · rw [he]
    exact hne
  · intro he
    rw [he] at hl
    omega

/-- Mapping `jsToLower` over an already lower-cased string changes
nothing. -/
theorem map_jsToLower_eq_self :
    ∀ l : List Char, (∀ c ∈ l, ¬(65 ≤ c.toNat ∧ c.toNat ≤ 90)) →
      l.map jsToLower = l := by
  intro l
  induction l with
  | nil => intro _; rfl
  | cons c rest ih =>
    intro h
    simp only [List.map_cons,
      jsToLower_eq_self (h c (List.mem_cons_self c rest))]
    rw [ih (fun x hx => h x (List.mem_cons_of_mem _ hx))]

/-- C1 counterexample: normalization is not idempotent.  A single
left-to-right pass of the `&amp;` replacement turns `"&amp;amp;"` into
`"&amp;"`, which a second normalization decodes further to `"&"`. -/
theorem C1_not_idempotent :
    normalizeTaxonomyName (normalizeTaxonomyName "&amp;amp;") ≠
      normalizeTaxonomyName "&amp;amp;" ∧
    normalizeTaxonomyName "&amp;amp;" = "&amp;" ∧
    normalizeTaxonomyName (normalizeTaxonomyName "&amp;amp;") = "&" := by
  decide

/-- C1 as amended: on every string that does not contain `'&'` (so that no
HTML entity can occur in either pass), normalization is idempotent. -/
theorem C1_normalize_idempotent_amp_free (s : String) (hs : '&' ∉ s.data) :
    normalizeTaxonomyName (normalizeTaxonomyName s) = normalizeTaxonomyName s := by
  by_cases h0 : s = ""
  · subst h0
    rfl
  · have hampt : '&' ∉ s.data.map jsToLower := by
      intro hmem
      obtain ⟨c, hc, hcl⟩ := List.mem_map.mp hmem
      refine jsToLower_ne (Or.inl (by decide)) (fun hce => hs ?_) hcl
      rw [← hce]
      exact hc
    have hdec : decodeEntities (s.data.map jsToLower) = s.data.map jsToLower :=
      decodeEntities_eq_self _ hampt
    have hw_eq : normalizeTaxonomyName s =
        String.mk (jsTrim (collapseWs (mapUnicode (s.data.map jsToLower)))) := by
      simp only [normalizeTaxonomyName, if_neg h0, hdec]
    rw [hw_eq]
    by_cases hwe :
        String.mk (jsTrim (collapseWs (mapUnicode (s.data.map jsToLower)))) = ""
    · rw [hwe]
      rfl
    · generalize hT : s.data.map jsToLower = t at hampt hwe
      have hup : ∀ c ∈ t, ¬(65 ≤ c.toNat ∧ c.toNat ≤ 90) := by
        intro c hc
        rw [← hT] at hc
        obtain ⟨d, _, hdl⟩ := List.mem_map.mp hc
        exact hdl ▸ jsToLower_not_upper d
      -- membership shape of the first pass's output
      have hmem_w : ∀ c ∈ jsTrim (collapseWs (mapUnicode t)),
          c ∈ t ∨ c = ' ' ∨ ∃ pr ∈ unicodePairs, c ∈ pr.2 := by
        intro c hc
        have h1 := mem_jsTrim c _ hc
        rcases mem_collapseGo c (mapUnicode t) false h1 with h2 | h2
        · exact Or.inr (Or.inl h2)
        · rcases mem_foldl_replaceClass unicodePairs c t h2 with h3 | h3
          · exact Or.inl h3
          · exact Or.inr (Or.inr h3)
      have hrep_upper : ∀ pr ∈ unicodePairs, ∀ c ∈ pr.2,
          ¬(65 ≤ c.toNat ∧ c.toNat ≤ 90) := by decide
      have hrep_amp : ∀ pr ∈ unicodePairs, '&' ∉ pr.2 := by decide
      have hcls_rep : ∀ pr ∈ unicodePairs, ∀ c ∈ pr.1,
          ∀ pr' ∈ unicodePairs, c ∉ pr'.2 := by decide
      have hcls_space : ∀ pr ∈ unicodePairs, ' ' ∉ pr.1 := by decide
      have hW1 : ∀ c ∈ jsTrim (collapseWs (mapUnicode t)),
          ¬(65 ≤ c.toNat ∧ c.toNat ≤ 90) := by
        intro c hc
        rcases hmem_w c hc with h | h | ⟨pr, hpr, hcr⟩
        · exact hup c h
        · subst h
          decide
        · exact hrep_upper pr hpr c hcr
      have hW2 : '&' ∉ jsTrim (collapseWs (mapUnicode t)) := by
        intro hc
        rcases hmem_w '&' hc with h | h | ⟨pr, hpr, hcr⟩
        · exact hampt h
        · cases h
        · exact hrep_amp pr hpr hcr
      have hW3 : ∀ pr ∈ unicodePairs,
          ∀ c ∈ jsTrim (collapseWs (mapUnicode t)), c ∉ pr.1 := by
        intro pr hpr c hc hcc
        have habsent : c ∉ mapUnicode t :=
          not_mem_foldl_replaceClass_of_cls unicodePairs c pr hpr hcc
            (hcls_rep pr hpr c hcc) t
        have h1 := mem_jsTrim c _ hc
        rcases mem_collapseGo c (mapUnicode t) false h1 with h2 | h2
        · subst h2
          exact hcls_space pr hpr hcc
        · exact habsent h2
      have hW4 : ∀ c ∈ jsTrim (collapseWs (mapUnicode t)),
          isJsWhitespace c = true → c = ' ' := by
        intro c hc hws
        exact ws_collapseGo_space c (mapUnicode t) false (mem_jsTrim c _ hc) hws
      have hW5 : List.Chain' (fun a d => isJsWhitespace a = false ∨
          isJsWhitespace d = false) (jsTrim (collapseWs (mapUnicode t))) :=
        chain_jsTrim _ (chain_collapseGo (mapUnicode t) false)
      -- the five stages of the second pass fix the first pass's output
      have hI1 : (jsTrim (collapseWs (mapUnicode t))).map jsToLower =
          jsTrim (collapseWs (mapUnicode t)) :=
        map_jsToLower_eq_self _ hW1
      have hI2 : decodeEntities (jsTrim (collapseWs (mapUnicode t))) =
          jsTrim (collapseWs (mapUnicode t)) :=
        decodeEntities_eq_self _ hW2
      have hI3 : mapUnicode (jsTrim (collapseWs (mapUnicode t))) =
          jsTrim (collapseWs (mapUnicode t)) :=
        foldl_replaceClass_eq_self unicodePairs _ hW3
      have hI4 : collapseWs (jsTrim (collapseWs (mapUnicode t))) =
          jsTrim (collapseWs (mapUnicode t)) :=
        collapseGo_false_eq_self _ hW4 hW5
      have hI5 : jsTrim (jsTrim (collapseWs (mapUnicode t))) =
          jsTrim (collapseWs (mapUnicode t)) :=
        jsTrim_jsTrim _
      simp only [normalizeTaxonomyName, if_neg hwe]
      rw [hI1, hI2, hI3, hI4, hI5]

/-- C1 witness: idempotence at a concrete `&`-free input that exercises
lower-casing, smart-quote mapping and whitespace collapse. -/
theorem C1_normalize_idempotent_amp_free_witness :
    '&' ∉ ("  Beginner’s   GUIDE " : String).data ∧
    normalizeTaxonomyName (normalizeTaxonomyName "  Beginner’s   GUIDE ") =
      normalizeTaxonomyName "  Beginner’s   GUIDE " :=
  ⟨by decide, C1_normalize_idempotent_amp_free "  Beginner’s   GUIDE " (by decide)⟩

end WordPressApi
